import Mathlib

/-!
Verification development for the Windows split-tunneling application catalog
(`gui/src/main/windows-split-tunneling.ts`).

The program scans start-menu shortcuts, filters and deduplicates them, decides
for each target executable whether it links against the networking library
(by parsing the PE import table), recovers a product name from the PE
version-info resource tree, and maintains caches of shortcuts and applications.

Shallow embedding conventions:
* a file is a `List Nat` of bytes; strict structure reads (the binary reader's
  `Value.fromFile`) fail with `.readErr` when the file holds too few bytes,
  while raw `fileHandle.read` calls zero-fill past end of file (`padRead`);
* fallible code returns `Except PErr α`; JavaScript `try`/`catch` boundaries
  become `match` on the `Except`;
* JavaScript objects used as string-keyed records become association lists
  whose update keeps the original key position (JS insertion order);
* the PE parser module (`windows-pe-parser.ts`) is not part of the sources;
  its binary reader, structure layouts and RVA translation are modelled from
  the specification (sections 4.1-4.3) and the standard PE layout, and each
  such definition is marked `Modelled from the spec`.
-/

/-- Bytes of an opened file, in order. -/
abbrev File := List Nat

/-- Errors of the embedded fallible operations. `readErr` models a failed
structured read, `notPE` the typed signature failure thrown by `getNtHeader`,
`noSection` a failed RVA translation, `typeErr` the TypeError raised when the
resource walker destructures an empty ID path and then calls a method on
`undefined`, `keyErr` an szKey validation failure, `allocErr` a
`Buffer.alloc` call with a negative size, and `fuelOut` is the marker used by
the fuel-indexed loop of `parseStrings` (the only loop of the source whose
termination is not forced by its shape). -/
inductive PErr where
  | readErr
  | notPE
  | noSection
  | typeErr
  | keyErr
  | allocErr
  | fuelOut
deriving DecidableEq

deriving instance DecidableEq for Except

/-- Modelled from the spec (section 4.1): a structured read of `n` bytes at
`off` reads exactly the bytes spanning the structure and fails with a read
error when the file holds too few bytes. -/
def readBytes (f : File) (off n : Nat) : Except PErr (List Nat) :=
  if off + n ≤ f.length then .ok ((f.drop off).take n) else .error .readErr

/-- Little-endian decoding of two bytes. -/
def le16 (b0 b1 : Nat) : Nat := b0 + 256 * b1

/-- Little-endian decoding of four bytes. -/
def le32 (b0 b1 b2 b3 : Nat) : Nat := b0 + 256 * b1 + 65536 * b2 + 16777216 * b3

/-- Modelled from the spec (section 4.1): read an unsigned 16-bit
little-endian field. -/
def readU16 (f : File) (off : Nat) : Except PErr Nat :=
  match readBytes f off 2 with
  | .ok bs => .ok (le16 (bs.getD 0 0) (bs.getD 1 0))
  | .error e => .error e

/-- Modelled from the spec (section 4.1): read an unsigned 32-bit
little-endian field. -/
def readU32 (f : File) (off : Nat) : Except PErr Nat :=
  match readBytes f off 4 with
  | .ok bs => .ok (le32 (bs.getD 0 0) (bs.getD 1 0) (bs.getD 2 0) (bs.getD 3 0))
  | .error e => .error e

/-- Raw `fileHandle.read` into a zeroed buffer: bytes past end of file stay
zero (Node zero-fills; such reads do not fail). -/
def padRead (f : File) (off n : Nat) : List Nat :=
  (List.range n).map (fun j => f.getD (off + j) 0)

/-- Decode bytes as Node's `ascii` encoding (the high bit is stripped). -/
def asciiStr (bs : List Nat) : String :=
  String.mk (bs.map (fun b => Char.ofNat (b % 128)))

/-- Decode bytes as UCS-2 little-endian code units (a trailing odd byte is
dropped, as Node's `ucs2` decoder does). -/
def ucs2Chars : List Nat → List Char
  | b0 :: b1 :: rest => Char.ofNat (le16 b0 b1) :: ucs2Chars rest
  | _ => []

/-- String form of `ucs2Chars`. -/
def ucs2Str (bs : List Nat) : String := String.mk (ucs2Chars bs)

/-- JavaScript `toLowerCase` restricted to the characters appearing in paths. -/
def lowerStr (s : String) : String := String.mk (s.data.map Char.toLower)

/-- Containment of one character list in another, scanning left to right. -/
def charsInfix (needle : List Char) : List Char → Bool
  | [] => needle.isEmpty
  | c :: rest => needle.isPrefixOf (c :: rest) || charsInfix needle rest

/-- JavaScript `String.prototype.includes`: substring containment. -/
def strIncludes (needle hay : String) : Bool := charsInfix needle.data hay.data

/-- JavaScript `String.prototype.substr(n)`: drop the first `n` characters. -/
def strDrop (s : String) (n : Nat) : String := String.mk (s.data.drop n)

/-- JavaScript `String.prototype.endsWith`: suffix test. -/
def strEndsWith (s suffix : String) : Bool := suffix.data.isSuffixOf s.data

/-- The `path.basename` of the win32 path module: the component after the last
separator (either slash works on Windows). -/
def basename (s : String) : String :=
  String.mk ((s.data.reverse.takeWhile (fun c => !(c == '/' || c == '\\'))).reverse)

/-- Extension of a path in the sense of `path.parse`: the suffix of the
basename starting at its last dot, empty when the dot is absent or leads the
basename. -/
def extOf (s : String) : String :=
  let b := (basename s).data
  let afterDot := b.reverse.takeWhile (fun c => !(c == '.'))
  if afterDot.length + 1 < b.length then String.mk ('.' :: afterDot.reverse) else String.mk []

/-- Name of a path in the sense of `path.parse`: the basename without the
extension. -/
def nameOf (s : String) : String :=
  let b := (basename s).data
  String.mk (b.take (b.length - (extOf s).data.length))

/-- Character encodings accepted by `readString` in the source. -/
inductive Enc where
  | ascii
  | ucs2
deriving DecidableEq

/-- Size in bytes of one code unit (`getCharacterSize` in the source). -/
def getCharacterSize : Enc → Nat
  | .ascii => 1
  | .ucs2 => 2

/-- One code unit is at least one byte wide. -/
theorem one_le_getCharacterSize (enc : Enc) : 1 ≤ getCharacterSize enc := by
  cases enc <;> simp [getCharacterSize]

/-- Decode one code unit the way the source decodes each single-unit buffer. -/
def decodeUnit : Enc → List Nat → String
  | .ascii, bs => asciiStr bs
  | .ucs2, bs => ucs2Str bs

/-- Body of `readString`: scan one code unit at a time from `off` until an
all-zero unit, returning the decoded string and the offset just past the
terminator. The counter `k` only drives the structural recursion; the wrapper
`readString` always supplies a counter at least `f.length - off`, and under
that bound the base case is never observed with a unit that the unbounded
source loop would have accepted: once `off` is past end of file every unit
reads as all-zero (Node zero-fills) and the loop stops, which is exactly what
the base case returns (`readStringGo_irrel` makes this precise). -/
def readStringGo (f : File) (enc : Enc) : (k : Nat) → (off : Nat) → String × Nat
  | 0, off => ("", off + getCharacterSize enc)
  | k + 1, off =>
    let unit := padRead f off (getCharacterSize enc)
    if unit.all (· == 0) then ("", off + getCharacterSize enc)
    else
      let r := readStringGo f enc k (off + getCharacterSize enc)
      (decodeUnit enc unit ++ r.1, r.2)

/-- The source's `readString`: read a null-terminated string of the given
encoding starting at `off`. Total, because every unit past end of file reads
as all-zero. -/
def readString (f : File) (enc : Enc) (off : Nat) : String × Nat :=
  readStringGo f enc (f.length - off) off

/-- Units past end of file read as all-zero. -/
theorem padRead_all_zero (f : File) (off n : Nat) (h : f.length ≤ off) :
    (padRead f off n).all (· == 0) = true := by
  simp only [padRead, List.all_map, List.all_eq_true, Function.comp]
  intro j _
  have hj : f.length ≤ off + j := by omega
  simp [List.getD, List.getElem?_eq_none hj]

/-- A unit that is not all-zero contains a real file byte, so the scan is
still inside the file. -/
theorem not_all_zero_lt (f : File) (off n : Nat)
    (h : ¬ (padRead f off n).all (· == 0) = true) : off < f.length := by
  by_contra hc
  exact h (padRead_all_zero f off n (by omega))

/-- The scan counter of `readStringGo` is irrelevant above the bound
`f.length - off`. -/
theorem readStringGo_irrel (f : File) (enc : Enc) :
    ∀ (k k' off : Nat), f.length ≤ off + k → f.length ≤ off + k' →
      readStringGo f enc k off = readStringGo f enc k' off := by
  intro k
  induction k with
  | zero =>
    intro k' off h h'
    cases k' with
    | zero => rfl
    | succ k' =>
      have hz := padRead_all_zero f off (getCharacterSize enc) (by omega)
      simp [readStringGo, hz]
  | succ k ih =>
    intro k' off h h'
    cases k' with
    | zero =>
      have hz := padRead_all_zero f off (getCharacterSize enc) (by omega)
      simp [readStringGo, hz]
    | succ k' =>
      simp only [readStringGo]
      by_cases hz : (padRead f off (getCharacterSize enc)).all (· == 0) = true
      · simp [hz]
      · have h1 : 1 ≤ getCharacterSize enc := one_le_getCharacterSize enc
        rw [ih k' (off + getCharacterSize enc) (by omega) (by omega)]

/-- Unfolding equation of `readString`, matching the source recursion step
for step. -/
theorem readString_eq (f : File) (enc : Enc) (off : Nat) :
    readString f enc off =
      (let unit := padRead f off (getCharacterSize enc)
       if unit.all (· == 0) then ("", off + getCharacterSize enc)
       else
         let r := readString f enc (off + getCharacterSize enc)
         (decodeUnit enc unit ++ r.1, r.2)) := by
  simp only [readString]
  by_cases hz : (padRead f off (getCharacterSize enc)).all (· == 0) = true
  · cases hk : f.length - off with
    | zero => simp [readStringGo, hz]
    | succ m => simp [readStringGo, hz]
  · have hoff : off < f.length := not_all_zero_lt f off (getCharacterSize enc) hz
    have h1 : 1 ≤ getCharacterSize enc := one_le_getCharacterSize enc
    obtain ⟨m, hm⟩ : ∃ m, f.length - off = m + 1 := ⟨f.length - off - 1, by omega⟩
    rw [hm]
    simp only [readStringGo, hz, if_false]
    rw [readStringGo_irrel f enc m (f.length - (off + getCharacterSize enc))
      (off + getCharacterSize enc) (by omega) (by omega)]

/-- The terminator is consumed: the end offset returned by `readString` is at
least one code unit past the start. -/
theorem readString_endOffset_ge (f : File) (enc : Enc) (off : Nat) :
    off + getCharacterSize enc ≤ (readString f enc off).2 := by
  simp only [readString]
  generalize f.length - off = k
  induction k generalizing off with
  | zero => simp [readStringGo]
  | succ k ih =>
    simp only [readStringGo]
    by_cases hz : (padRead f off (getCharacterSize enc)).all (· == 0) = true
    · simp [hz]
    · have h1 : 1 ≤ getCharacterSize enc := one_le_getCharacterSize enc
      have := ih (off + getCharacterSize enc)
      rw [if_neg hz]
      simp only []
      omega

/-- Context captured by the `rvaToOffset` closure built in `getTableOffset`:
the number of sections and the file offset of the section table (which begins
right after the optional header). -/
structure RvaCtx where
  numberOfSections : Nat
  sectionTableOffset : Nat
deriving DecidableEq

/-- Modelled from the spec (section 4.3), body of the RVA translator: scan
the section headers in order and pick the first whose virtual-address range
contains the RVA. Each section header is 40 bytes, with VirtualSize at
offset 8, VirtualAddress at offset 12 and PointerToRawData at offset 20. -/
def rvaToOffsetGo (f : File) (rva : Nat) : (count : Nat) → (secOff : Nat) → Except PErr Nat
  | 0, _ => .error .noSection
  | count + 1, secOff => do
    let _ ← readBytes f secOff 40
    let virtualSize ← readU32 f (secOff + 8)
    let virtualAddress ← readU32 f (secOff + 12)
    let pointerToRawData ← readU32 f (secOff + 20)
    if virtualAddress ≤ rva ∧ rva < virtualAddress + virtualSize then
      .ok (pointerToRawData + (rva - virtualAddress))
    else
      rvaToOffsetGo f rva count (secOff + 40)

/-- Modelled from the spec (section 4.3): translate a relative virtual
address to a file offset through the section table; no matching section is a
failure. -/
def rvaToOffset (f : File) (ctx : RvaCtx) (rva : Nat) : Except PErr Nat :=
  rvaToOffsetGo f rva ctx.numberOfSections ctx.sectionTableOffset

/-- Result of `getNtHeader`: where the NT header lives and which of the two
optional-header variants it uses (`magic` 0x20B denotes the 64-bit one). -/
structure NtInfo where
  offset : Nat
  is64 : Bool
deriving DecidableEq

/-- Size of the 32-bit NT headers structure (`IMAGE_NT_HEADERS`): 4-byte
signature, 20-byte file header, 224-byte 32-bit optional header. Modelled
from the spec (section 4.2) and the standard PE layout. -/
def ntHeaders32Size : Nat := 248

/-- Size of the 64-bit NT headers structure (`IMAGE_NT_HEADERS64`): the
optional header grows to 240 bytes. Modelled from the spec (section 4.2). -/
def ntHeaders64Size : Nat := 264

/-- The source's `getNtHeader`: read the DOS header at offset 0 and demand
the `MZ` magic, follow `e_lfanew` to the NT header, demand the `PE\0\0`
signature, then select the 32- or 64-bit layout from the optional header's
magic field. Mismatched signatures abort with the typed `notPE` failure. -/
def getNtHeader (f : File) : Except PErr NtInfo := do
  let _ ← readBytes f 0 64
  let eMagic ← readU16 f 0
  if eMagic ≠ 0x5A4D then
    .error .notPE
  else do
    let ntHeaderOffset ← readU32 f 60
    let sigBytes ← readBytes f ntHeaderOffset 4
    let _ ← readBytes f ntHeaderOffset ntHeaders32Size
    if asciiStr sigBytes ≠ "PE\x00\x00" then
      .error .notPE
    else do
      let magic ← readU16 f (ntHeaderOffset + 24)
      if magic = 0x20B then do
        let _ ← readBytes f ntHeaderOffset ntHeaders64Size
        .ok ⟨ntHeaderOffset, true⟩
      else
        .ok ⟨ntHeaderOffset, false⟩

/-- Offset of the data-directory array inside the optional header: 96 bytes
of leading fields in the 32-bit variant, 112 in the 64-bit one. Modelled from
the spec (section 4.2) and the standard PE layout. -/
def dataDirectoryBase (nt : NtInfo) : Nat :=
  nt.offset + 24 + (if nt.is64 then 112 else 96)

/-- The source's `getTableOffset`: find the NT header, read the requested
data-directory entry's virtual address (index 1 is the import table, 2 the
resource table), return `none` when that address is zero, and otherwise
translate it through the section table, also yielding the translation
context used for later `rvaToOffset` calls. -/
def getTableOffset (f : File) (tableIndex : Nat) : Except PErr (Option (Nat × RvaCtx)) := do
  let nt ← getNtHeader f
  let tableRva ← readU32 f (dataDirectoryBase nt + 8 * tableIndex)
  if tableRva = 0 then
    .ok none
  else do
    let numberOfSections ← readU16 f (nt.offset + 6)
    let sizeOfOptionalHeader ← readU16 f (nt.offset + 20)
    let ntHeaderEndOffset := nt.offset + 4 + 20 + sizeOfOptionalHeader
    let ctx : RvaCtx := ⟨numberOfSections, ntHeaderEndOffset⟩
    let tableOffset ← rvaToOffset f ctx tableRva
    .ok (some (tableOffset, ctx))

/-- Size of one import descriptor (`IMAGE_IMPORT_MODULE_DIRECTORY`), with the
ModuleName RVA at offset 12. Modelled from the spec (section 4.4) and the
standard PE layout. -/
def importEntrySize : Nat := 20

/-- Body of `getImportModuleNames`: walk fixed-size import descriptors from
`off`, stopping at the first zero ModuleName RVA and resolving every other
one to a null-terminated ascii module name. The counter `k` only drives the
structural recursion; the wrapper supplies `f.length + 1`, and under the
invariant `f.length ≤ off + k` maintained from it the base case is reached
only past end of file, where the descriptor read fails exactly as the base
case reports (`getImportNamesGo_irrel` makes this precise). -/
def getImportNamesGo (f : File) (ctx : RvaCtx) : (k : Nat) → (off : Nat) →
    Except PErr (List String)
  | 0, _ => .error .readErr
  | k + 1, off =>
    match readBytes f off importEntrySize with
    | .error e => .error e
    | .ok _ => do
      let moduleNameRva ← readU32 f (off + 12)
      if moduleNameRva = 0 then
        .ok []
      else do
        let nameOffset ← rvaToOffset f ctx moduleNameRva
        let name := (readString f .ascii nameOffset).1
        let rest ← getImportNamesGo f ctx k (off + importEntrySize)
        .ok (name :: rest)

/-- The source's `getImportModuleNames`: the ordered list of imported module
names, ending at the first zero entry; reading past the table's backing
bytes is a read failure, caught by the caller. -/
def getImportModuleNames (f : File) (ctx : RvaCtx) (importTableOffset : Nat) :
    Except PErr (List String) :=
  getImportNamesGo f ctx (f.length + 1) importTableOffset

/-- A successful strict read stays inside the file. -/
theorem readBytes_ok_le (f : File) (off n : Nat) (bs : List Nat)
    (h : readBytes f off n = .ok bs) : off + n ≤ f.length := by
  by_contra hc
  simp [readBytes, if_neg hc] at h

/-- The walk counter of `getImportNamesGo` is irrelevant above the bound
`f.length - off`. -/
theorem getImportNamesGo_irrel (f : File) (ctx : RvaCtx) :
    ∀ (k k' off : Nat), f.length ≤ off + k → f.length ≤ off + k' →
      getImportNamesGo f ctx k off = getImportNamesGo f ctx k' off := by
  have base : ∀ (k off : Nat), f.length ≤ off →
      getImportNamesGo f ctx k off = .error .readErr := by
    intro k off h
    cases k with
    | zero => rfl
    | succ k =>
      have hfail : readBytes f off importEntrySize = .error .readErr := by
        simp [readBytes, importEntrySize]
        omega
      simp [getImportNamesGo, hfail]
  intro k
  induction k with
  | zero =>
    intro k' off h h'
    rw [base 0 off (by omega), base k' off (by omega)]
  | succ k ih =>
    intro k' off h h'
    cases k' with
    | zero => rw [base (k + 1) off (by omega), base 0 off (by omega)]
    | succ k' =>
      simp only [getImportNamesGo]
      cases hread : readBytes f off importEntrySize with
      | error e => rfl
      | ok bs =>
        have hin : off + importEntrySize ≤ f.length := readBytes_ok_le f off _ bs hread
        have : getImportNamesGo f ctx k (off + importEntrySize)
            = getImportNamesGo f ctx k' (off + importEntrySize) := by
          have h20 : 1 ≤ importEntrySize := by simp [importEntrySize]
          exact ih k' (off + importEntrySize) (by omega) (by omega)
        rw [this]

/-- Index of the import table in the data-directory array. -/
def IMAGE_DIRECTORY_ENTRY_IMPORT : Nat := 1

/-- Index of the resource table in the data-directory array. -/
def IMAGE_DIRECTORY_ENTRY_RESOURCE : Nat := 2

/-- The source's `getExeImports` up to its `try`: locate the import table
(`none` when the directory entry's virtual address is zero means no imports)
and walk it. -/
def getExeImportsCore (f : File) : Except PErr (List String) := do
  match ← getTableOffset f IMAGE_DIRECTORY_ENTRY_IMPORT with
  | none => .ok []
  | some (importTableOffset, ctx) => getImportModuleNames f ctx importTableOffset

/-- The source's `getExeImports`: any failure while reading the import table
is caught, logged and downgraded to an empty import list. -/
def getExeImports (f : File) : List String :=
  match getExeImportsCore f with
  | .ok moduleNames => moduleNames
  | .error _ => []

/-- The source's `importsDll`: `fs` models the file system; a path that
cannot be opened reports `false`, otherwise the lower-cased import list is
searched for the lower-cased module name. -/
def importsDll (fs : String → Option File) (path dllName : String) : Bool :=
  match fs path with
  | none => false
  | some f => ((getExeImports f).map lowerStr).contains (lowerStr dllName)

/-- The source's `getResourceTreeLeafValueOffset`: read the 16-byte resource
data entry at `offset` (DataRVA first) and translate its RVA. Layout
modelled from the spec (section 4.5) and the standard PE layout. -/
def getResourceTreeLeafValueOffset (f : File) (ctx : RvaCtx) (offset : Nat) :
    Except PErr Nat := do
  let _ ← readBytes f offset 16
  let valueRva ← readU32 f offset
  rvaToOffset f ctx valueRva

/-- Loop body of the source's `getResourceTreeLeafOffsets` for one 8-byte ID
entry (entries sit after the `numberOfNameEntries` named entries): when the
entry's ID is in the current level's accepted set, either collect the
RVA-translated leaf offset (high bit of OffsetToData clear and path
exhausted), skip it (leaf but path remains), or recurse into the
subdirectory through `recurse` (high bit set; the remaining 31 bits are an
offset relative to the resource section base). Entry layout is modelled
from the spec (section 4.5) and the standard PE layout. -/
def resEntryStep (f : File) (ctx : RvaCtx)
    (sectionOffset tableOffset numberOfNameEntries : Nat) (ids : List Nat)
    (restEmpty : Bool) (recurse : Nat → Except PErr (List Nat))
    (leaves : List Nat) (j : Nat) : Except PErr (List Nat) := do
  let entryOffset := tableOffset + 16 + (numberOfNameEntries + j) * 8
  let _ ← readBytes f entryOffset 8
  let id ← readU32 f entryOffset
  if id ∈ ids then do
    let offsetToData ← readU32 f (entryOffset + 4)
    if offsetToData < 2147483648 then
      if restEmpty then do
        let leafDataOffset ← getResourceTreeLeafValueOffset f ctx
          (sectionOffset + offsetToData)
        pure (leaves ++ [leafDataOffset])
      else
        pure leaves
    else do
      let subTreeLeaves ← recurse (sectionOffset + offsetToData % 2147483648)
      pure (leaves ++ subTreeLeaves)
  else
    pure leaves

/-- The source's `getResourceTreeLeafOffsets`: read the 16-byte directory
header at `tableOffset` (named-entry count at offset 12, ID-entry count at
offset 14, both modelled from the spec, section 4.5, and the standard PE
layout), then run `resEntryStep` over the ID entries in order, descending
with the remaining path. An empty ID path makes the destructured `ids`
binding `undefined` in the source, so touching any entry then raises a
TypeError, modelled by `.error .typeErr` after the entry's own read. -/
def getResourceTreeLeafOffsets (f : File) (ctx : RvaCtx) (sectionOffset : Nat) :
    (path : List (List Nat)) → (tableOffset : Nat) → Except PErr (List Nat)
  | [], tableOffset => do
    let _ ← readBytes f tableOffset 16
    let numberOfNameEntries ← readU16 f (tableOffset + 12)
    let numberOfIdEntries ← readU16 f (tableOffset + 14)
    (List.range numberOfIdEntries).foldlM (fun _ j => do
      let entryOffset := tableOffset + 16 + (numberOfNameEntries + j) * 8
      let _ ← readBytes f entryOffset 8
      (.error .typeErr : Except PErr (List Nat))) []
  | ids :: rest, tableOffset => do
    let _ ← readBytes f tableOffset 16
    let numberOfNameEntries ← readU16 f (tableOffset + 12)
    let numberOfIdEntries ← readU16 f (tableOffset + 14)
    (List.range numberOfIdEntries).foldlM
      (resEntryStep f ctx sectionOffset tableOffset numberOfNameEntries ids rest.isEmpty
        (fun subTableOffset => getResourceTreeLeafOffsets f ctx sectionOffset rest subTableOffset))
      []
  termination_by structural path => path

/-- JavaScript string-keyed collections (objects and Maps) as association
lists: `recSet` overwrites in place or appends, preserving insertion order
exactly as JavaScript enumeration does. -/
def recSet {α : Type} (m : List (String × α)) (k : String) (v : α) : List (String × α) :=
  if m.any (fun p => p.1 == k) then m.map (fun p => if p.1 == k then (k, v) else p)
  else m ++ [(k, v)]

/-- Lookup in a JavaScript string-keyed collection. -/
def recGet {α : Type} (m : List (String × α)) (k : String) : Option α :=
  match m.find? (fun p => p.1 == k) with
  | some p => some p.2
  | none => none

/-- JavaScript `delete obj[k]`. -/
def recDel {α : Type} (m : List (String × α)) (k : String) : List (String × α) :=
  m.filter (fun p => !(p.1 == k))

/-- Key-presence test in a JavaScript string-keyed collection. -/
def recHasKey {α : Type} (m : List (String × α)) (k : String) : Bool :=
  m.any (fun p => p.1 == k)

/-- JavaScript `Object.values`. -/
def recValues {α : Type} (m : List (String × α)) : List α := m.map Prod.snd

/-- The source's `alignDword`: round an offset up to the next multiple of
four. -/
def alignDword (offset : Nat) : Nat := ((offset + 3) / 4) * 4

/-- The source's `getChildrenOffset`: skip the structure's fixed fields
(every version-info structure starts with the 6 bytes wLength, wValueLength,
wType — modelled from the spec, section 4.6), read the null-terminated
double-byte szKey, validate it, and return the dword-aligned offset just
past it. -/
def getChildrenOffset (f : File) (offset structSize : Nat)
    (validateSzKey : String → Bool) : Except PErr Nat :=
  let szKeyOffset := offset + structSize
  let r := readString f .ucs2 szKeyOffset
  if validateSzKey r.1 then .ok (alignDword r.2) else .error .keyErr

/-- The source's `getVsVersionInfoChildrenOffset`: past the validated
`VS_VERSION_INFO` key sits the fixed Value field whose declared length is
`wValueLength`; its dword-aligned end is where the children start. -/
def getVsVersionInfoChildrenOffset (f : File) (offset : Nat) : Except PErr Nat := do
  let valueValueOffset ← getChildrenOffset f offset 6 (fun szKey => szKey == "VS_VERSION_INFO")
  let _ ← readBytes f offset 6
  let wValueLength ← readU16 f (offset + 2)
  .ok (alignDword (valueValueOffset + wValueLength))

/-- One iteration of the `parseStrings` loop: decode the String entry at
`off`, returning its key, the raw value bytes read, and the offset of the
next entry. The value read size is `min((wValueLength-1)*2, wLength -
(valueOffset - off) - 2)` as a signed quantity; `Buffer.alloc` of a negative
size throws, modelled by `.error .allocErr`. -/
def decodeStringEntry (f : File) (off : Nat) : Except PErr (String × List Nat × Nat) := do
  let _ ← readBytes f off 6
  let structSize ← readU16 f off
  let wValueLength ← readU16 f (off + 2)
  let valueSize : Int := ((wValueLength : Int) - 1) * 2
  let r := readString f .ucs2 (off + 6)
  let valueOffset := alignDword r.2
  let calculatedValueMaxSize : Int := (structSize : Int) - ((valueOffset : Int) - (off : Int)) - 2
  let valueReadSize : Int := min valueSize calculatedValueMaxSize
  if valueReadSize < 0 then .error .allocErr
  else
    .ok (r.1, padRead f valueOffset valueReadSize.toNat, off + alignDword structSize)

/-- Body of the source's `parseStrings` loop, indexed by fuel. The source
loop advances by `alignDword(wLength)`, which is zero when an entry declares
`wLength = 0`, so the raw loop need not terminate; `.error .fuelOut` marks
fuel exhaustion, and the termination theorem shows the wrapper's fuel of
`stringTableEnd - stringsOffset` is never exhausted. -/
def parseStringsGo (f : File) (stringTableEnd : Nat) :
    (fuel : Nat) → (off : Nat) → (strings : List (String × String)) →
    Except PErr (List (String × String))
  | 0, off, strings =>
    if off < stringTableEnd then .error .fuelOut else .ok strings
  | fuel + 1, off, strings =>
    if off < stringTableEnd then
      match decodeStringEntry f off with
      | .error e => .error e
      | .ok r => parseStringsGo f stringTableEnd fuel r.2.2 (recSet strings r.1 (ucs2Str r.2.1))
    else .ok strings

/-- The source's `parseStrings`: walk the String entries between
`stringsOffset` and `stringTableEnd`, collecting key-value pairs. -/
def parseStrings (f : File) (stringsOffset stringTableEnd : Nat) :
    Except PErr (List (String × String)) :=
  parseStringsGo f stringTableEnd (stringTableEnd - stringsOffset) stringsOffset []

/-- The source's `getVsVersionInfoStrings` up to its `try`: locate the
children of VS_VERSIONINFO, validate the `StringFileInfo` key, read the
string table's declared length, locate the strings behind the
language/codepage key (codepage match is suffix-based on case-insensitive
`04b0`), and parse them. -/
def getVsVersionInfoStringsCore (f : File) (offset : Nat) :
    Except PErr (List (String × String)) := do
  let stringFileInfoOffset ← getVsVersionInfoChildrenOffset f offset
  let stringTableOffset ← getChildrenOffset f stringFileInfoOffset 6
    (fun szKey => szKey == "StringFileInfo")
  let _ ← readBytes f stringTableOffset 6
  let stringTableLength ← readU16 f stringTableOffset
  let stringsOffset ← getChildrenOffset f stringTableOffset 6
    (fun szKey => lowerStr (strDrop szKey 4) == "04b0")
  parseStrings f stringsOffset (stringTableOffset + stringTableLength)

/-- The source's `getVsVersionInfoStrings`: any decoding failure yields an
empty map. -/
def getVsVersionInfoStrings (f : File) (offset : Nat) : List (String × String) :=
  match getVsVersionInfoStringsCore f offset with
  | .ok strings => strings
  | .error _ => []

/-- The reduce in `getProductName`: keep the first truthy name; a leaf
contributes `FileDescription` if present, else `ProductName` (the JavaScript
nullish-coalescing keeps an empty present value, but an empty accumulated
value does not short-circuit later leaves). -/
def productNameFromLeaves (f : File) (leafOffsets : List Nat) : Option String :=
  leafOffsets.foldl (fun value leafOffset =>
    if (value.getD "") ≠ "" then value
    else
      let strings := getVsVersionInfoStrings f leafOffset
      match recGet strings "FileDescription" with
      | some v => some v
      | none => recGet strings "ProductName") none

/-- The source's `getProductName` up to its `try`: locate the resource table
(`none` when the directory entry's virtual address is zero), collect the
version-info leaves along the ID path `[[16],[1],[0,1033]]`, and pick the
first usable name. -/
def getProductNameCore (f : File) : Except PErr (Option String) := do
  match ← getTableOffset f IMAGE_DIRECTORY_ENTRY_RESOURCE with
  | none => .ok none
  | some (resourceTableOffset, ctx) => do
    let leafOffsets ← getResourceTreeLeafOffsets f ctx resourceTableOffset
      [[16], [1], [0, 1033]] resourceTableOffset
    .ok (productNameFromLeaves f leafOffsets)

/-- The source's `getProductName` for an already-opened file: every failure
is caught and downgraded to `undefined`. -/
def getProductNameOfFile (f : File) : Option String :=
  match getProductNameCore f with
  | .ok value => value
  | .error _ => none

/-- The source's `getProductName` on a path: a path that cannot be opened
also reports `undefined`. -/
def getProductName (fs : String → Option File) (path : String) : Option String :=
  match fs path with
  | none => none
  | some f => getProductNameOfFile f

/-- The source's `getProgramName`: `getProductName` with failures already
folded to `undefined`. -/
def getProgramName (fs : String → Option File) (exePath : String) : Option String :=
  getProductName fs exePath

/-- The source's `ShortcutDetails`: resolved shortcut target, display name,
optional invocation arguments, and whether the user may delete the entry. -/
structure ShortcutDetails where
  target : String
  name : String
  args : Option String := none
  deletable : Bool := false
deriving DecidableEq

/-- The renderer-facing `IWindowsApplication` entry. -/
structure IWindowsApplication where
  absolutepath : String
  name : String
  icon : String
  deletable : Bool
deriving DecidableEq

/-- The source's static `APPLICATION_ALLOW_LIST` of basenames that are
always treated as networking-capable. -/
def APPLICATION_ALLOW_LIST : List String :=
  ["firefox.exe", "chrome.exe", "msedge.exe", "brave.exe", "iexplore.exe"]

/-- Truthiness of the `args` field as the source tests it
(`args && args !== ''`). -/
def argsNonEmpty (shortcut : ShortcutDetails) : Bool :=
  match shortcut.args with
  | some a => !(a == "")
  | none => false

/-- The filter predicate of `resolveLinks`: keep a resolved shortcut when
its target is not the VPN application, ends in `.exe`, and neither the
lower-cased target nor the lower-cased shortcut name contains `install`
(which also covers `uninstall`). -/
def resolveLinksKeep (shortcut : ShortcutDetails) : Bool :=
  !(strEndsWith shortcut.target ("Mullvad VPN.exe")) &&
  strEndsWith shortcut.target (".exe") &&
  !(strIncludes ("install") (lowerStr shortcut.target)) &&
  !(strIncludes ("install") (lowerStr shortcut.name))

/-- The source's `resolveLinks` on already-resolved link contents: a `none`
entry is a shortcut whose resolution threw and is dropped; the rest pass
through the filter. -/
def resolveLinks (resolved : List (Option ShortcutDetails)) : List ShortcutDetails :=
  (resolved.filterMap id).filter resolveLinksKeep

/-- Loop body of the source's `removeDuplicates`: fold one shortcut into the
object keyed by lower-cased target; a later shortcut replaces the stored one
only when the stored one has non-empty arguments and the later one has empty
or absent arguments. -/
def dedupStep (unique : List (String × ShortcutDetails)) (shortcut : ShortcutDetails) :
    List (String × ShortcutDetails) :=
  match recGet unique (lowerStr shortcut.target) with
  | some stored =>
    if argsNonEmpty stored && !(argsNonEmpty shortcut) then
      recSet unique (lowerStr shortcut.target) shortcut
    else
      unique
  | none => recSet unique (lowerStr shortcut.target) shortcut

/-- The source's `removeDuplicates`: fold every shortcut through `dedupStep`
and return the remaining descriptors in key-insertion order. -/
def removeDuplicates (shortcuts : List ShortcutDetails) : List ShortcutDetails :=
  recValues (shortcuts.foldl dedupStep [])

/-- Classification applied by `updateShortcutCache` to each deduplicated
shortcut: on the allow-list by lower-cased basename, or imports the
networking library. -/
def shortcutQualifies (fs : String → Option File) (shortcut : ShortcutDetails) : Bool :=
  APPLICATION_ALLOW_LIST.contains (basename (lowerStr shortcut.target)) ||
  importsDll fs shortcut.target ("WS2_32.dll")

/-- Loop body of the source's `updateShortcutCache`: write one qualifying
shortcut into the shortcut cache under its lower-cased target. -/
def cacheStep (fs : String → Option File) (cache : List (String × ShortcutDetails))
    (shortcut : ShortcutDetails) : List (String × ShortcutDetails) :=
  if shortcutQualifies fs shortcut then
    recSet cache (lowerStr shortcut.target) shortcut
  else
    cache

/-- The source's `updateShortcutCache` given the resolved link contents:
filter, deduplicate, classify, and cache every qualifying shortcut. -/
def updateShortcutCache (fs : String → Option File)
    (shortcutCache : List (String × ShortcutDetails))
    (resolved : List (Option ShortcutDetails)) : List (String × ShortcutDetails) :=
  (removeDuplicates (resolveLinks resolved)).foldl (cacheStep fs) shortcutCache

/-- The module-level mutable state: the shortcut cache, the application
cache, and the user-added additional shortcuts. -/
structure STState where
  shortcutCache : List (String × ShortcutDetails)
  applicationCache : List (String × IWindowsApplication)
  additionalShortcuts : List ShortcutDetails
deriving DecidableEq

/-- What `shell.readShortcutLink` returns: the stored target and arguments. -/
structure LinkInfo where
  target : String
  args : Option String := none
deriving DecidableEq

/-- The source's `addApplicationToAdditionalShortcuts`: append a descriptor
for `applicationPath` unless its lower-cased form is already a shortcut
cache key or the lower-cased target of an additional shortcut; the display
name is the product name when available, else the path's parsed name. -/
def addApplicationToAdditionalShortcuts (fs : String → Option File) (state : STState)
    (applicationPath : String) : STState :=
  if (recGet state.shortcutCache (lowerStr applicationPath)).isNone &&
      !(state.additionalShortcuts.any (fun shortcut =>
        lowerStr shortcut.target == lowerStr applicationPath)) then
    { state with additionalShortcuts := state.additionalShortcuts ++
        [{ target := applicationPath,
           name := (getProgramName fs applicationPath).getD (nameOf applicationPath),
           deletable := true }] }
  else
    state

/-- The source's `addApplicationPathToCache`: a `.lnk` path is resolved via
the shell and its descriptor appended unconditionally; any other path goes
through `addApplicationToAdditionalShortcuts` (which checks both caches).
Returns the new state and the application path handed back to the caller. -/
def addApplicationPathToCache (readShortcutLink : String → LinkInfo)
    (fs : String → Option File) (state : STState) (applicationPath : String) :
    STState × String :=
  if extOf applicationPath == ".lnk" then
    let shortcutDetails := readShortcutLink applicationPath
    ({ state with additionalShortcuts := state.additionalShortcuts ++
        [{ target := shortcutDetails.target, args := shortcutDetails.args,
           name := nameOf applicationPath, deletable := true }] },
     shortcutDetails.target)
  else
    (addApplicationToAdditionalShortcuts fs state applicationPath, applicationPath)

/-- The source's `removeApplicationFromCache`: drop additional shortcuts
whose target equals the application's absolute path, and delete the
application cache entry under the lower-cased path. The shortcut cache is
untouched. -/
def removeApplicationFromCache (state : STState) (application : IWindowsApplication) :
    STState :=
  { state with
    additionalShortcuts := state.additionalShortcuts.filter (fun shortcut =>
      !(shortcut.target == application.absolutepath)),
    applicationCache := recDel state.applicationCache (lowerStr application.absolutepath) }

/-- Key presence implies a successful lookup. -/
theorem recGet_isNone_of_hasKey {α : Type} (m : List (String × α)) (k : String)
    (h : recHasKey m k = true) : (recGet m k).isNone = false := by
  simp only [recHasKey, List.any_eq_true] at h
  obtain ⟨p, hp, hpk⟩ := h
  simp only [recGet]
  cases hfind : m.find? (fun q => q.1 == k) with
  | some q => simp
  | none =>
    have := List.find?_eq_none.mp hfind p hp
    simp [hpk] at this

/-- A concrete shortcut without arguments. -/
def shortcutPlain : ShortcutDetails := { target := "C:/App.exe", name := "plain" }

/-- A concrete shortcut to the same target up to case, carrying arguments. -/
def shortcutFlagged : ShortcutDetails :=
  { target := "C:/APP.EXE", name := "flagged", args := some ("--flag") }

/-- C2, counterexample: two shortcuts whose targets agree up to case, one
with absent arguments and one with the non-empty argument `--flag`.
`removeDuplicates` keeps exactly one descriptor, but in both input orders it
is the argument-less one, not the one carrying `--flag` as the claim
states. -/
theorem claim_C2_counterexample :
    lowerStr shortcutPlain.target = lowerStr shortcutFlagged.target ∧
    argsNonEmpty shortcutPlain = false ∧ argsNonEmpty shortcutFlagged = true ∧
    removeDuplicates [shortcutPlain, shortcutFlagged] = [shortcutPlain] ∧
    removeDuplicates [shortcutFlagged, shortcutPlain] = [shortcutPlain] ∧
    ¬ removeDuplicates [shortcutPlain, shortcutFlagged] = [shortcutFlagged] := by
  decide

/-- C2, amended: for two shortcuts with the same target up to case, one with
empty or absent arguments and one with non-empty arguments,
`removeDuplicates` returns exactly one descriptor for that target, namely
the one with empty or absent arguments, in either input order. -/
theorem claim_C2_amended (a b : ShortcutDetails)
    (hs : lowerStr a.target = lowerStr b.target)
    (ha : argsNonEmpty a = false) (hb : argsNonEmpty b = true) :
    removeDuplicates [a, b] = [a] ∧ removeDuplicates [b, a] = [a] := by
  constructor
  · simp [removeDuplicates, dedupStep, recGet, recSet, recValues, hs, ha, hb]
  · simp [removeDuplicates, dedupStep, recGet, recSet, recValues, hs, ha, hb]

/-- C2, witness for the amended theorem at the concrete pair. -/
theorem claim_C2_amended_witness :
    removeDuplicates [shortcutPlain, shortcutFlagged] = [shortcutPlain] ∧
    removeDuplicates [shortcutFlagged, shortcutPlain] = [shortcutPlain] :=
  claim_C2_amended shortcutPlain shortcutFlagged (by decide) (by decide) (by decide)

/-- C9: removing an application filters every matching descriptor out of the
additional-shortcuts list (and keeps every non-matching one), deletes the
lower-cased path from the application cache, and leaves the shortcut cache
unchanged. -/
theorem claim_C9 (state : STState) (application : IWindowsApplication) :
    (∀ shortcut ∈ (removeApplicationFromCache state application).additionalShortcuts,
        shortcut.target ≠ application.absolutepath) ∧
    (∀ shortcut ∈ state.additionalShortcuts, shortcut.target ≠ application.absolutepath →
        shortcut ∈ (removeApplicationFromCache state application).additionalShortcuts) ∧
    (removeApplicationFromCache state application).applicationCache
      = recDel state.applicationCache (lowerStr application.absolutepath) ∧
    (removeApplicationFromCache state application).shortcutCache = state.shortcutCache := by
  refine ⟨?_, ?_, rfl, rfl⟩
  · intro shortcut hmem
    simp only [removeApplicationFromCache, List.mem_filter, Bool.not_eq_eq_eq_not,
      Bool.not_true, beq_eq_false_iff_ne, ne_eq] at hmem
    exact hmem.2
  · intro shortcut hmem hne
    simp only [removeApplicationFromCache, List.mem_filter, Bool.not_eq_eq_eq_not,
      Bool.not_true, beq_eq_false_iff_ne, ne_eq]
    exact ⟨hmem, hne⟩

/-- A concrete catalog state used by the C8 and C9 witnesses' surroundings:
one system-discovered shortcut, one cached application, one user-added
shortcut. -/
def stateDemo : STState :=
  { shortcutCache := [("c:/sys/tool.exe",
      { target := "C:/Sys/Tool.exe", name := "tool" })],
    applicationCache := [("c:/a/app.exe",
      { absolutepath := "C:/a/App.exe", name := "app", icon := "i", deletable := true })],
    additionalShortcuts := [{ target := "C:/a/App.exe", name := "app", deletable := true }] }

/-- A concrete application entry matching the additional shortcut of
`stateDemo`. -/
def appDemo : IWindowsApplication :=
  { absolutepath := "C:/a/App.exe", name := "app", icon := "i", deletable := true }

/-- C9, witness at the concrete state. -/
theorem claim_C9_witness :
    (∀ shortcut ∈ (removeApplicationFromCache stateDemo appDemo).additionalShortcuts,
        shortcut.target ≠ appDemo.absolutepath) ∧
    (∀ shortcut ∈ stateDemo.additionalShortcuts, shortcut.target ≠ appDemo.absolutepath →
        shortcut ∈ (removeApplicationFromCache stateDemo appDemo).additionalShortcuts) ∧
    (removeApplicationFromCache stateDemo appDemo).applicationCache
      = recDel stateDemo.applicationCache (lowerStr appDemo.absolutepath) ∧
    (removeApplicationFromCache stateDemo appDemo).shortcutCache = stateDemo.shortcutCache :=
  claim_C9 stateDemo appDemo

/-- A shell that resolves every shortcut file to the target of `stateDemo`'s
user-added shortcut. -/
def readShortcutLinkDemo : String → LinkInfo := fun _ => { target := "C:/a/App.exe" }

/-- A file system with no openable files. -/
def fsEmpty : String → Option File := fun _ => none

/-- C8, counterexample: the resolved target of the `.lnk` path is already the
target of an additional shortcut (and the claim's presence condition holds),
yet `addApplicationPathToCache` appends a new descriptor anyway: the `.lnk`
branch never consults either cache. -/
theorem claim_C8_counterexample :
    extOf ("C:/link.lnk") = ".lnk" ∧
    (stateDemo.additionalShortcuts.any (fun shortcut =>
      lowerStr shortcut.target == lowerStr (readShortcutLinkDemo ("C:/link.lnk")).target)) = true ∧
    (addApplicationPathToCache readShortcutLinkDemo fsEmpty stateDemo
      ("C:/link.lnk")).1.additionalShortcuts.length
      = stateDemo.additionalShortcuts.length + 1 := by
  decide

/-- C8, amended: for a path already present in the shortcut cache or the
additional-shortcuts list (comparing case-insensitively),
`addApplicationPathToCache` skips the addition when the path is a raw
executable path (the state is returned unchanged); when the path is a
`.lnk` file the resolved descriptor is appended unconditionally, without any
presence check. -/
theorem claim_C8_amended (readShortcutLink : String → LinkInfo)
    (fs : String → Option File) (state : STState) (applicationPath : String)
    (hpresent : recHasKey state.shortcutCache (lowerStr applicationPath) = true ∨
      (state.additionalShortcuts.any (fun shortcut =>
        lowerStr shortcut.target == lowerStr applicationPath)) = true) :
    (extOf applicationPath ≠ ".lnk" →
      addApplicationPathToCache readShortcutLink fs state applicationPath
        = (state, applicationPath)) ∧
    (extOf applicationPath = ".lnk" →
      (addApplicationPathToCache readShortcutLink fs state applicationPath).1.additionalShortcuts
        = state.additionalShortcuts ++
          [{ target := (readShortcutLink applicationPath).target,
             args := (readShortcutLink applicationPath).args,
             name := nameOf applicationPath, deletable := true }]) := by
  constructor
  · intro hext
    have hb : (extOf applicationPath == ".lnk") = false := by
      simp [hext]
    simp only [addApplicationPathToCache, hb, Bool.false_eq_true, if_false]
    have hcond : ((recGet state.shortcutCache (lowerStr applicationPath)).isNone &&
        !(state.additionalShortcuts.any (fun shortcut =>
          lowerStr shortcut.target == lowerStr applicationPath))) = false := by
      rcases hpresent with h | h
      · simp [recGet_isNone_of_hasKey state.shortcutCache _ h]
      · simp [h]
    simp [addApplicationToAdditionalShortcuts, hcond]
  · intro hext
    have hb : (extOf applicationPath == ".lnk") = true := by
      simp [hext]
    simp [addApplicationPathToCache, hb]

/-- C8, witness for the amended theorem: the raw-path branch at a concrete
state where the path is the target of an additional shortcut. -/
theorem claim_C8_amended_witness :
    addApplicationPathToCache readShortcutLinkDemo fsEmpty stateDemo ("C:/a/App.exe")
      = (stateDemo, "C:/a/App.exe") :=
  (claim_C8_amended readShortcutLinkDemo fsEmpty stateDemo ("C:/a/App.exe")
    (Or.inr (by decide))).1 (by decide)

/-- Overwrite bytes of a file at an offset, for building witness inputs. -/
def patchBytes (f : List Nat) (off : Nat) (bs : List Nat) : List Nat :=
  f.take off ++ bs ++ f.drop (off + bs.length)

/-- A well-formed 32-bit PE whose import and resource data-directory entries
both hold virtual address zero: `MZ` magic, `e_lfanew = 64`, `PE\0\0`
signature, optional-header magic 0x10B, declared optional-header size 224,
and an otherwise zeroed body. -/
def fZero : File :=
  patchBytes (patchBytes (patchBytes (patchBytes (patchBytes (List.replicate 312 0)
    0 [0x4D, 0x5A]) 60 [64, 0, 0, 0]) 64 [0x50, 0x45, 0, 0]) 84 [224, 0]) 88 [0x0B, 0x01]

/-- Reduction of the `Except` monad's bind on a success. -/
theorem bind_ok_eq {e a b : Type} (x : a) (k : a → Except e b) :
    ((Except.ok x : Except e a) >>= k) = k x := rfl

/-- Reduction of the `Except` monad's bind on a failure. -/
theorem bind_error_eq {e a b : Type} (err : e) (k : a → Except e b) :
    ((Except.error err : Except e a) >>= k) = .error err := rfl

/-- C4: a file whose DOS magic is readable but differs from 0x5A4D, or whose
DOS magic is right and whose NT signature bytes at `e_lfanew` are readable
(with the full 32-bit header) but differ from `PE\0\0`, makes `getNtHeader`
abort with the typed `Not a PE file` failure; no header value is returned. -/
theorem claim_C4 (f : File) (bs : List Nat) (hdos : readBytes f 0 64 = .ok bs)
    (h : (∃ m, readU16 f 0 = .ok m ∧ m ≠ 0x5A4D) ∨
      (∃ ntOff sig nt, readU16 f 0 = .ok 0x5A4D ∧ readU32 f 60 = .ok ntOff ∧
        readBytes f ntOff 4 = .ok sig ∧ readBytes f ntOff ntHeaders32Size = .ok nt ∧
        asciiStr sig ≠ "PE\x00\x00")) :
    getNtHeader f = .error .notPE := by
  rcases h with ⟨m, hm, hne⟩ | ⟨ntOff, sig, nt, hm, hlf, hsig, hnt, hne⟩
  · simp [getNtHeader, hdos, hm, hne, bind_ok_eq]
  · simp [getNtHeader, hdos, hm, hlf, hsig, hnt, hne, bind_ok_eq]

/-- C4, witness: the all-zero 64-byte file reads DOS magic 0 and is
rejected. -/
theorem claim_C4_witness : getNtHeader (List.replicate 64 0) = .error .notPE :=
  claim_C4 (List.replicate 64 0) (((List.replicate 64 0).drop 0).take 64) rfl
    (Or.inl ⟨0, rfl, by decide⟩)

/-- C3: when the import (resp. resource) data-directory entry has virtual
address zero — `getTableOffset` returns `ok none` — or when any structural
or read failure occurs in the fallible core, the per-file operation degrades
to feature absent: `getExeImports` returns the empty list and
`getProductName` returns `undefined`. Both wrappers are total, so no error
reaches the catalog-wide scan. -/
theorem claim_C3 (f g : File)
    (hf : getTableOffset f IMAGE_DIRECTORY_ENTRY_IMPORT = .ok none ∨
      ∃ e, getExeImportsCore f = .error e)
    (hg : getTableOffset g IMAGE_DIRECTORY_ENTRY_RESOURCE = .ok none ∨
      ∃ e, getProductNameCore g = .error e) :
    getExeImports f = [] ∧ getProductNameOfFile g = none := by
  constructor
  · rcases hf with h | ⟨e, h⟩
    · simp [getExeImports, getExeImportsCore, h, bind_ok_eq]
    · simp [getExeImports, h]
  · rcases hg with h | ⟨e, h⟩
    · simp [getProductNameOfFile, getProductNameCore, h, bind_ok_eq]
    · simp [getProductNameOfFile, h]

set_option maxRecDepth 100000 in
/-- C3, witness: `fZero` has both directory entries at virtual address zero;
the empty file fails its very first header read. -/
theorem claim_C3_witness : getExeImports fZero = [] ∧ getProductNameOfFile [] = none :=
  claim_C3 fZero [] (Or.inl rfl) (Or.inr ⟨.readErr, rfl⟩)

/-- Length of a padded raw read. -/
theorem padRead_length (f : File) (off n : Nat) : (padRead f off n).length = n := by
  simp [padRead]

/-- A failed strict read fails with exactly the read error. -/
theorem readBytes_error (f : File) (off n : Nat) (e : PErr)
    (h : readBytes f off n = .error e) : e = .readErr := by
  unfold readBytes at h
  split at h
  · cases h
  · cases h; rfl

/-- A failed 16-bit read fails with exactly the read error. -/
theorem readU16_error (f : File) (off : Nat) (e : PErr)
    (h : readU16 f off = .error e) : e = .readErr := by
  unfold readU16 at h
  split at h
  · cases h
  · cases h
    exact readBytes_error f off 2 _ (by assumption)

/-- Offsets never shrink under dword alignment. -/
theorem le_alignDword (n : Nat) : n ≤ alignDword n := by
  simp only [alignDword]
  omega

/-- C7: for a String entry that `parseStrings` decodes successfully at
`off`, with declared lengths `wLength` and `wValueLength`, the number of
value bytes read equals `max 0 (wValueLength*2 - 2)` clamped to the bytes
remaining in the entry as bounded by `wLength`, the dword-aligned end of the
key, and the two-byte null terminator; in particular it never exceeds that
remaining-bytes bound. -/
theorem claim_C7 (f : File) (off : Nat) (szKey : String) (valueBytes : List Nat)
    (next wLength wValueLength : Nat)
    (h : decodeStringEntry f off = .ok (szKey, valueBytes, next))
    (hw : readU16 f off = .ok wLength) (hv : readU16 f (off + 2) = .ok wValueLength) :
    (valueBytes.length : Int)
      = max 0 (min ((wValueLength : Int) * 2 - 2)
          ((wLength : Int) - ((alignDword (readString f .ucs2 (off + 6)).2 : Int) - (off : Int)) - 2)) ∧
    (valueBytes.length : Int)
      ≤ (wLength : Int) - ((alignDword (readString f .ucs2 (off + 6)).2 : Int) - (off : Int)) - 2 := by
  simp only [decodeStringEntry] at h
  cases h6 : readBytes f off 6 with
  | error e => rw [h6, bind_error_eq] at h; cases h
  | ok bs =>
    rw [h6, bind_ok_eq, hw, bind_ok_eq, hv, bind_ok_eq] at h
    set a : Int := ((wValueLength : Int) - 1) * 2 with ha
    set b : Int := (wLength : Int)
      - ((alignDword (readString f .ucs2 (off + 6)).2 : Int) - (off : Int)) - 2 with hb
    by_cases hneg : min a b < 0
    · rw [if_pos hneg] at h; cases h
    · rw [if_neg hneg] at h
      have hvb : valueBytes = padRead f (alignDword (readString f .ucs2 (off + 6)).2)
          (min a b).toNat := by
        cases h; rfl
      have hlen : (valueBytes.length : Int) = min a b := by
        rw [hvb, padRead_length]
        exact Int.toNat_of_nonneg (by omega)
      constructor
      · rw [hlen]
        have hab : (wValueLength : Int) * 2 - 2 = a := by rw [ha]; ring
        rw [hab]
        exact (max_eq_right (by omega)).symm
      · rw [hlen]
        exact min_le_right a b

/-- The concrete String entry used by the C7 and C10 witnesses:
`wLength = 18`, `wValueLength = 3`, key `K`, value `AB`. -/
def fStr : File := [18, 0, 3, 0, 1, 0, 75, 0, 0, 0, 0, 0, 65, 0, 66, 0, 0, 0, 0, 0]

set_option maxRecDepth 40000 in
/-- C7, witness: the concrete entry reads four value bytes, and four equals
the clamped size. -/
theorem claim_C7_witness :
    ((([65, 0, 66, 0] : List Nat).length : Int)
      = max 0 (min (((3 : Nat) : Int) * 2 - 2)
          (((18 : Nat) : Int) - ((alignDword (readString fStr .ucs2 (0 + 6)).2 : Int) - ((0 : Nat) : Int)) - 2))) ∧
    ((([65, 0, 66, 0] : List Nat).length : Int)
      ≤ ((18 : Nat) : Int) - ((alignDword (readString fStr .ucs2 (0 + 6)).2 : Int) - ((0 : Nat) : Int)) - 2) :=
  claim_C7 fStr 0 "K" [65, 0, 66, 0] 20 18 3 rfl rfl rfl

/-- Decoding one String entry never reports fuel exhaustion: its only
failures are read errors and the negative `Buffer.alloc`. -/
theorem decodeStringEntry_ne_fuelOut (f : File) (off : Nat) :
    decodeStringEntry f off ≠ .error .fuelOut := by
  simp only [decodeStringEntry]
  cases h6 : readBytes f off 6 with
  | error e =>
    rw [bind_error_eq]
    have := readBytes_error f off 6 e h6
    simp [this]
  | ok bs =>
    rw [bind_ok_eq]
    cases hw : readU16 f off with
    | error e =>
      rw [bind_error_eq]
      have := readU16_error f off e hw
      simp [this]
    | ok wLength =>
      rw [bind_ok_eq]
      cases hv : readU16 f (off + 2) with
      | error e =>
        rw [bind_error_eq]
        have := readU16_error f (off + 2) e hv
        simp [this]
      | ok wValueLength =>
        rw [bind_ok_eq]
        split
        · simp
        · simp

/-- A successfully decoded String entry declares `wLength ≥ 10` (the fixed
fields, at least one key unit, alignment and the terminator all fit inside
it, or the value read size would have been negative), so the loop advances
by at least 12 bytes. -/
theorem decodeStringEntry_ok_advance (f : File) (off : Nat) (szKey : String)
    (valueBytes : List Nat) (next : Nat)
    (h : decodeStringEntry f off = .ok (szKey, valueBytes, next)) :
    off + 12 ≤ next := by
  simp only [decodeStringEntry] at h
  cases h6 : readBytes f off 6 with
  | error e => rw [h6, bind_error_eq] at h; cases h
  | ok bs =>
    rw [h6, bind_ok_eq] at h
    cases hw : readU16 f off with
    | error e => rw [hw, bind_error_eq] at h; cases h
    | ok wLength =>
      rw [hw, bind_ok_eq] at h
      cases hv : readU16 f (off + 2) with
      | error e => rw [hv, bind_error_eq] at h; cases h
      | ok wValueLength =>
        rw [hv, bind_ok_eq] at h
        set a : Int := ((wValueLength : Int) - 1) * 2 with ha
        set b : Int := (wLength : Int)
          - ((alignDword (readString f .ucs2 (off + 6)).2 : Int) - (off : Int)) - 2 with hb
        by_cases hneg : min a b < 0
        · rw [if_pos hneg] at h; cases h
        · rw [if_neg hneg] at h
          have hend : off + 6 + 2 ≤ (readString f .ucs2 (off + 6)).2 :=
            readString_endOffset_ge f .ucs2 (off + 6)
          have halign : (readString f .ucs2 (off + 6)).2
              ≤ alignDword (readString f .ucs2 (off + 6)).2 :=
            le_alignDword _
          have hble : min a b ≤ b := min_le_right a b
          have hw10 : 10 ≤ wLength := by
            rw [hb] at hble
            omega
          have hnext : next = off + alignDword wLength := by cases h; rfl
          have : 12 ≤ alignDword wLength := by
            simp only [alignDword]
            omega
          omega

/-- With fuel at least `stringTableEnd - off` the `parseStrings` loop never
exhausts it: every successful iteration advances the offset by at least 12
while spending one unit of fuel. -/
theorem parseStringsGo_no_fuelOut (f : File) (stringTableEnd : Nat) :
    ∀ (fuel off : Nat) (strings : List (String × String)),
      stringTableEnd ≤ off + fuel →
      parseStringsGo f stringTableEnd fuel off strings ≠ .error .fuelOut := by
  intro fuel
  induction fuel with
  | zero =>
    intro off strings h
    simp only [parseStringsGo]
    rw [if_neg (by omega)]
    simp
  | succ fuel ih =>
    intro off strings h
    simp only [parseStringsGo]
    by_cases hlt : off < stringTableEnd
    · rw [if_pos hlt]
      cases hd : decodeStringEntry f off with
      | error e =>
        intro hcontra
        injection hcontra with he
        rw [he] at hd
        exact decodeStringEntry_ne_fuelOut f off hd
      | ok r =>
        have hadv : off + 12 ≤ r.2.2 := decodeStringEntry_ok_advance f off r.1 r.2.1 r.2.2 hd
        exact ih r.2.2 _ (by omega)
    · rw [if_neg hlt]
      simp

/-- Declared entry length at an offset: the 16-bit field when readable, the
default otherwise. -/
def u16AtD (f : File) (off d : Nat) : Nat :=
  match readU16 f off with
  | .ok w => w
  | .error _ => d

/-- C10: when every 16-bit length readable inside the string-table region
declares at least 1, `parseStrings` terminates — its loop, run with fuel
`stringTableEnd - stringsOffset`, never reports fuel exhaustion. The proof
does not even need the hypothesis: a successfully decoded entry always
declares `wLength ≥ 10` (`decodeStringEntry_ok_advance`), so the claimed
condition is satisfied by every iteration the loop completes. The
companion facts record the advance behaviour the claim cites: a declared
`wLength ≥ 1` advances the offset by `alignDword wLength ≥ 4 > 0`, while a
declared `wLength` of 0 advances it by `alignDword 0 = 0`. -/
theorem claim_C10 (f : File) (stringsOffset stringTableEnd : Nat)
    (hdecl : ∀ off, off < stringTableEnd → stringsOffset ≤ off → 1 ≤ u16AtD f off 1) :
    parseStrings f stringsOffset stringTableEnd ≠ .error .fuelOut ∧
    alignDword 0 = 0 ∧ (∀ w, 1 ≤ w → 4 ≤ alignDword w) := by
  refine ⟨?_, rfl, fun w hw => by simp only [alignDword]; omega⟩
  exact parseStringsGo_no_fuelOut f stringTableEnd _ _ _ (by omega)

/-- C10, witness: the region covering the fixed fields of the concrete entry
(every readable 16-bit value in it is nonzero) is parsed without fuel
exhaustion. -/
theorem claim_C10_witness : parseStrings fStr 0 6 ≠ .error .fuelOut :=
  (claim_C10 fStr 0 6 (by decide)).1

/-- ModuleName RVA of the `j`-th import descriptor of a table at
`tableOffset`, read the way `getImportModuleNames` reads it: the whole
descriptor first, then its ModuleName field. -/
def importEntryModuleNameRva (f : File) (tableOffset j : Nat) : Except PErr Nat := do
  let _ ← readBytes f (tableOffset + j * importEntrySize) importEntrySize
  readU32 f (tableOffset + j * importEntrySize + 12)

/-- Walking one descriptor forward shifts the entry index by one. -/
theorem importEntryModuleNameRva_shift (f : File) (tableOffset j : Nat) :
    importEntryModuleNameRva f (tableOffset + importEntrySize) j
      = importEntryModuleNameRva f tableOffset (j + 1) := by
  unfold importEntryModuleNameRva
  have h : tableOffset + importEntrySize + j * importEntrySize
      = tableOffset + (j + 1) * importEntrySize := by ring
  rw [h]

/-- One-step unfolding of `getImportModuleNames`, by counter irrelevance. -/
theorem getImportModuleNames_eq (f : File) (ctx : RvaCtx) (tableOffset : Nat) :
    getImportModuleNames f ctx tableOffset =
      (match readBytes f tableOffset importEntrySize with
       | .error e => .error e
       | .ok _ => do
         let moduleNameRva ← readU32 f (tableOffset + 12)
         if moduleNameRva = 0 then
           .ok []
         else do
           let nameOffset ← rvaToOffset f ctx moduleNameRva
           let rest ← getImportModuleNames f ctx (tableOffset + importEntrySize)
           .ok ((readString f .ascii nameOffset).1 :: rest)) := by
  conv_lhs => rw [getImportModuleNames]
  simp only [getImportNamesGo]
  cases h : readBytes f tableOffset importEntrySize with
  | error e => rfl
  | ok bs =>
    simp only []
    rw [getImportNamesGo_irrel f ctx f.length (f.length + 1)
      (tableOffset + importEntrySize) (by omega) (by omega)]
    rfl

/-- C5: when the descriptors at `tableOffset` carry the nonzero ModuleName
RVAs `rvas 0, …, rvas (n-1)` followed by a zero-RVA terminator, and each RVA
translates to an offset holding the null-terminated name `names j`,
`getImportModuleNames` returns exactly those names in table order; with
`n = 0` (first entry already the terminator) it returns the empty list. -/
theorem claim_C5 (f : File) (ctx : RvaCtx) (tableOffset : Nat) (n : Nat)
    (rvas : Nat → Nat) (names : Nat → String)
    (hentries : ∀ j, j < n →
      importEntryModuleNameRva f tableOffset j = .ok (rvas j) ∧ rvas j ≠ 0)
    (hterm : importEntryModuleNameRva f tableOffset n = .ok 0)
    (hnames : ∀ j, j < n → ∃ off, rvaToOffset f ctx (rvas j) = .ok off ∧
      (readString f .ascii off).1 = names j) :
    getImportModuleNames f ctx tableOffset = .ok ((List.range n).map names) := by
  induction n generalizing tableOffset rvas names with
  | zero =>
    rw [getImportModuleNames_eq]
    unfold importEntryModuleNameRva at hterm
    simp only [Nat.zero_mul, Nat.add_zero] at hterm
    cases h : readBytes f tableOffset importEntrySize with
    | error e => rw [h, bind_error_eq] at hterm; cases hterm
    | ok bs =>
      rw [h, bind_ok_eq] at hterm
      simp [hterm, bind_ok_eq]
  | succ n ih =>
    obtain ⟨h0r, h0ne⟩ := hentries 0 (by omega)
    obtain ⟨off0, hoff0, hname0⟩ := hnames 0 (by omega)
    rw [getImportModuleNames_eq]
    unfold importEntryModuleNameRva at h0r
    simp only [Nat.zero_mul, Nat.add_zero] at h0r
    cases hread : readBytes f tableOffset importEntrySize with
    | error e => rw [hread, bind_error_eq] at h0r; cases h0r
    | ok bs =>
      rw [hread, bind_ok_eq] at h0r
      simp only []
      rw [h0r, bind_ok_eq, if_neg h0ne, hoff0, bind_ok_eq]
      have hrec := ih (tableOffset + importEntrySize)
        (fun j => rvas (j + 1)) (fun j => names (j + 1))
        (fun j hj => by
          rw [importEntryModuleNameRva_shift]
          exact hentries (j + 1) (by omega))
        (by
          rw [importEntryModuleNameRva_shift]
          exact hterm)
        (fun j hj => hnames (j + 1) (by omega))
      rw [hrec, bind_ok_eq, hname0]
      congr 1
      rw [List.range_succ_eq_map]
      simp

/-- An import table: one section header at offset 0 mapping RVA 0x1000 to
file offset 0, descriptors at offset 40 for `ws2_32.dll` (RVA 0x1064, file
offset 100) and `kernel32.dll` (RVA 0x1070, file offset 112), then a zero
terminator entry. -/
def fImp : File :=
  patchBytes (patchBytes (patchBytes (patchBytes (patchBytes (List.replicate 130 0)
    8 [0, 0, 1, 0]) 12 [0, 16, 0, 0]) 52 [0x64, 0x10, 0, 0]) 72 [0x70, 0x10, 0, 0])
    100 ([119, 115, 50, 95, 51, 50, 46, 100, 108, 108, 0]
      ++ [0] ++ [107, 101, 114, 110, 101, 108, 51, 50, 46, 100, 108, 108, 0])

/-- ModuleName RVAs of the entries of `fImp`. -/
def impRvas : Nat → Nat := fun j => if j = 0 then 0x1064 else if j = 1 then 0x1070 else 0

/-- Module names of the entries of `fImp`. -/
def impNames : Nat → String :=
  fun j => if j = 0 then "ws2_32.dll" else if j = 1 then "kernel32.dll" else ""

set_option maxRecDepth 1000000 in
/-- C5, witness: the crafted two-entry table yields exactly its two module
names in order. -/
theorem claim_C5_witness :
    getImportModuleNames fImp ⟨1, 0⟩ 40 = .ok ["ws2_32.dll", "kernel32.dll"] := by
  have h := claim_C5 fImp ⟨1, 0⟩ 40 2 impRvas impNames
    (by decide)
    (by decide)
    (fun j hj => by
      interval_cases j
      · exact ⟨100, rfl, rfl⟩
      · exact ⟨112, rfl, rfl⟩)
  rw [h]
  rfl

mutual
/-- Abstract resource directory trees: a leaf stores the RVA-translated file
offset of its data, a directory its named-entry count and ID entries (in
table order). Named entries carry no content here because the walker never
reads them. -/
inductive ResTree where
  | leaf (dataOffset : Nat) : ResTree
  | dir (numberOfNameEntries : Nat) (entries : ResEntries) : ResTree
deriving DecidableEq
inductive ResEntries where
  | nil : ResEntries
  | cons (id : Nat) (child : ResTree) (rest : ResEntries) : ResEntries
deriving DecidableEq
end

/-- Number of ID entries of an abstract directory. -/
def entriesLength : ResEntries → Nat
  | .nil => 0
  | .cons _ _ rest => entriesLength rest + 1

mutual
/-- Decidable encoding relation between a file region and an abstract tree:
`encodesChild t od` states that the OffsetToData value `od` read from an
entry leads to `t` (leaf data entry resolving to the stored offset when the
high bit is clear, subdirectory at the masked offset relative to the section
base when it is set), and `encodesEntries tableOffset nNames j es` states
that the ID entries of the directory at `tableOffset`, from slot
`nNames + j` on, read back exactly `es`. -/
def encodesChild (f : File) (ctx : RvaCtx) (so : Nat) : ResTree → Nat → Bool
  | .leaf w, od =>
    decide (od < 2147483648) &&
    decide (getResourceTreeLeafValueOffset f ctx (so + od) = .ok w)
  | .dir nNames es, od =>
    decide (¬ od < 2147483648) &&
    (decide (so + od % 2147483648 + 16 ≤ f.length) &&
     decide (readU16 f (so + od % 2147483648 + 12) = .ok nNames) &&
     decide (readU16 f (so + od % 2147483648 + 14) = .ok (entriesLength es)) &&
     encodesEntries f ctx so (so + od % 2147483648) nNames 0 es)
def encodesEntries (f : File) (ctx : RvaCtx) (so : Nat) (tableOffset nNames : Nat) :
    Nat → ResEntries → Bool
  | _, .nil => true
  | j, .cons id child rest =>
    (decide (tableOffset + 16 + (nNames + j) * 8 + 8 ≤ f.length) &&
     decide (readU32 f (tableOffset + 16 + (nNames + j) * 8) = .ok id) &&
     (match readU32 f (tableOffset + 16 + (nNames + j) * 8 + 4) with
      | .error _ => false
      | .ok od => encodesChild f ctx so child od)) &&
    encodesEntries f ctx so tableOffset nNames (j + 1) rest
end

/-- Encoding of a directory sitting directly at a table offset (the shape in
which the walker visits every node). -/
def encodesDirAt (f : File) (ctx : RvaCtx) (so : Nat) : ResTree → Nat → Bool
  | .leaf _, _ => false
  | .dir nNames es, tableOffset =>
    decide (tableOffset + 16 ≤ f.length) &&
    decide (readU16 f (tableOffset + 12) = .ok nNames) &&
    decide (readU16 f (tableOffset + 14) = .ok (entriesLength es)) &&
    encodesEntries f ctx so tableOffset nNames 0 es

/-- The child-through-entry encoding of a subdirectory is its at-offset
encoding behind the high-bit test. -/
theorem encodesChild_dir (f : File) (ctx : RvaCtx) (so nNames od : Nat) (es : ResEntries) :
    encodesChild f ctx so (.dir nNames es) od =
      (decide (¬ od < 2147483648) &&
        encodesDirAt f ctx so (.dir nNames es) (so + od % 2147483648)) := rfl

mutual
/-- Paths along which the walker cannot fail on an encoded tree: a leaf
tolerates any remaining path (it is skipped unless the path is exhausted),
while a directory reached with an exhausted path must have no ID entries
(otherwise the walker's TypeError fires) and a directory reached with
`ids :: rest` must be fine on `rest` behind every accepted entry. -/
def pathOkChild : ResTree → List (List Nat) → Bool
  | .leaf _, _ => true
  | .dir _ es, [] => decide (es = .nil)
  | .dir _ es, ids :: rest => pathOkEntries es ids rest
def pathOkEntries : ResEntries → List Nat → List (List Nat) → Bool
  | .nil, _, _ => true
  | .cons id child rest, ids, restPath =>
    (if id ∈ ids then pathOkChild child restPath else true) && pathOkEntries rest ids restPath
end

mutual
/-- Reference semantics of the walker on the abstract tree: ID entries in
order, named entries never contributing, only accepted IDs descended, leaf
offsets collected exactly when the path is consumed. -/
def specLeavesChild : ResTree → List (List Nat) → List Nat
  | .leaf w, restPath => if restPath.isEmpty then [w] else []
  | .dir _ _, [] => []
  | .dir _ es, ids :: rest => specLeavesEntries es ids rest
def specLeavesEntries : ResEntries → List Nat → List (List Nat) → List Nat
  | .nil, _, _ => []
  | .cons id child rest, ids, restPath =>
    (if id ∈ ids then specLeavesChild child restPath else []) ++
      specLeavesEntries rest ids restPath
end

/-- A strict read succeeds below the length bound. -/
theorem readBytes_ok_of_le (f : File) (off n : Nat) (h : off + n ≤ f.length) :
    readBytes f off n = .ok ((f.drop off).take n) := by
  simp [readBytes, h]

theorem pure_eq_ok {e a : Type} (x : a) : (pure x : Except e a) = .ok x := rfl

mutual
theorem resWalkChild_spec (f : File) (ctx : RvaCtx) (so : Nat) :
    ∀ (t : ResTree) (tableOffset : Nat) (path : List (List Nat)),
      encodesDirAt f ctx so t tableOffset = true → pathOkChild t path = true →
      getResourceTreeLeafOffsets f ctx so path tableOffset = .ok (specLeavesChild t path)
  | .leaf w, tableOffset, path => by
    intro he _
    simp [encodesDirAt] at he
  | .dir nNames es, tableOffset, path => by
    intro he hp
    simp only [encodesDirAt, Bool.and_eq_true, decide_eq_true_eq] at he
    obtain ⟨⟨⟨hlen, h12⟩, h14⟩, hents⟩ := he
    have hrb := readBytes_ok_of_le f tableOffset 16 hlen
    cases path with
    | nil =>
      have hnil : es = .nil := by simpa [pathOkChild] using hp
      subst hnil
      simp only [getResourceTreeLeafOffsets]
      rw [hrb, bind_ok_eq, h12, bind_ok_eq, h14, bind_ok_eq]
      simp [entriesLength, specLeavesChild, List.foldlM_nil, pure_eq_ok]
    | cons ids rest =>
      simp only [getResourceTreeLeafOffsets]
      rw [hrb, bind_ok_eq, h12, bind_ok_eq, h14, bind_ok_eq]
      have hfold := resWalkEntries_spec f ctx so es tableOffset nNames 0 ids rest []
        hents (by simpa [pathOkChild] using hp)
      rw [List.range_eq_range' (entriesLength es), hfold]
      simp [specLeavesChild]
theorem resWalkEntries_spec (f : File) (ctx : RvaCtx) (so : Nat) :
    ∀ (es : ResEntries) (tableOffset nNames j : Nat) (ids : List Nat)
      (rest : List (List Nat)) (acc : List Nat),
      encodesEntries f ctx so tableOffset nNames j es = true →
      pathOkEntries es ids rest = true →
      (List.range' j (entriesLength es)).foldlM
        (resEntryStep f ctx so tableOffset nNames ids rest.isEmpty
          (fun subTableOffset => getResourceTreeLeafOffsets f ctx so rest subTableOffset)) acc
        = .ok (acc ++ specLeavesEntries es ids rest)
  | .nil, tableOffset, nNames, j, ids, rest, acc => by
    intro _ _
    simp [entriesLength, specLeavesEntries, List.foldlM_nil, pure_eq_ok]
  | .cons id child rest', tableOffset, nNames, j, ids, rest, acc => by
    intro he hp
    simp only [encodesEntries, Bool.and_eq_true, decide_eq_true_eq] at he
    obtain ⟨⟨⟨hblen, hid⟩, hodm⟩, hes'⟩ := he
    simp only [pathOkEntries, Bool.and_eq_true] at hp
    obtain ⟨hpc, hprest⟩ := hp
    simp only [entriesLength, List.range'_succ, List.foldlM_cons]
    cases hod : readU32 f (tableOffset + 16 + (nNames + j) * 8 + 4) with
    | error e =>
      rw [hod] at hodm
      simp at hodm
    | ok od =>
      rw [hod] at hodm
      have hodc : encodesChild f ctx so child od = true := hodm
      have hrec := resWalkEntries_spec f ctx so rest' tableOffset nNames (j + 1) ids rest
      simp only [resEntryStep]
      rw [readBytes_ok_of_le f _ 8 hblen, bind_ok_eq, hid, bind_ok_eq]
      by_cases hmem : id ∈ ids
      · rw [if_pos hmem, hod, bind_ok_eq]
        rw [if_pos hmem] at hpc
        have hsub := fun (hd : encodesDirAt f ctx so child (so + od % 2147483648) = true)
            (hc : pathOkChild child rest = true) =>
          resWalkChild_spec f ctx so child (so + od % 2147483648) rest hd hc
        cases child with
        | leaf w =>
          simp only [encodesChild, Bool.and_eq_true, decide_eq_true_eq] at hodc
          obtain ⟨hlt, hleaf⟩ := hodc
          rw [if_pos hlt]
          cases rest with
          | nil =>
            simp only [List.isEmpty_nil, if_pos]
            rw [hleaf, bind_ok_eq, pure_eq_ok, bind_ok_eq]
            simp only [List.isEmpty_nil] at hrec
            rw [hrec (acc ++ [w]) hes' hprest]
            simp [specLeavesEntries, specLeavesChild, hmem, List.append_assoc]
          | cons p ps =>
            simp only [List.isEmpty_cons, Bool.false_eq_true, if_false]
            simp only [List.isEmpty_cons] at hrec
            rw [pure_eq_ok, bind_ok_eq, hrec acc hes' hprest]
            simp [specLeavesEntries, specLeavesChild, hmem]
        | dir nN' es'' =>
          rw [encodesChild_dir] at hodc
          simp only [Bool.and_eq_true, decide_eq_true_eq] at hodc
          obtain ⟨hge, hdirat⟩ := hodc
          rw [if_neg hge]
          rw [hsub hdirat hpc, bind_ok_eq, pure_eq_ok, bind_ok_eq]
          rw [hrec (acc ++ specLeavesChild (.dir nN' es'') rest) hes' hprest]
          simp [specLeavesEntries, hmem, List.append_assoc]
      · rw [if_neg hmem]
        rw [pure_eq_ok, bind_ok_eq, hrec acc hes' hprest]
        simp [specLeavesEntries, hmem]
end

/-- C6: on any file region encoding a resource directory tree, for any path
of per-level ID sets the tree tolerates, the walker returns exactly the
RVA-translated data offsets of the leaves reached by consuming the full
path: ID entries are visited in table order, named-entry slots are never
read, only entries whose ID is in the current level's accepted set are
descended, and `specLeavesChild` is precisely that collection on the
abstract tree. -/
theorem claim_C6 (f : File) (ctx : RvaCtx) (so : Nat) (t : ResTree)
    (tableOffset : Nat) (path : List (List Nat))
    (he : encodesDirAt f ctx so t tableOffset = true)
    (hp : pathOkChild t path = true) :
    getResourceTreeLeafOffsets f ctx so path tableOffset = .ok (specLeavesChild t path) :=
  resWalkChild_spec f ctx so t tableOffset path he hp

/-- A two-level resource tree: root (one named slot, one ID entry 16), a
subdirectory keyed 1, and a language level with leaves for 1033 and 1041.
The named slot holds a subdirectory pointer past end of file, so visiting it
would abort the walk. The section header at offset 200 maps RVA 0x1000 to
file offset 160. -/
def fRes : File :=
  patchBytes (patchBytes (patchBytes (patchBytes (patchBytes (patchBytes (patchBytes
  (patchBytes (patchBytes (patchBytes (patchBytes (patchBytes (patchBytes
    (List.replicate 240 0)
    12 [1, 0, 1, 0])
    16 [16, 0, 0, 0, 0, 15, 0, 128])
    24 [16, 0, 0, 0, 48, 0, 0, 128])
    62 [1, 0])
    64 [1, 0, 0, 0, 72, 0, 0, 128])
    86 [2, 0])
    88 [9, 4, 0, 0, 104, 0, 0, 0])
    96 [17, 4, 0, 0, 120, 0, 0, 0])
    104 [0, 16, 0, 0])
    120 [16, 16, 0, 0])
    208 [0, 1, 0, 0])
    212 [0, 16, 0, 0])
    220 [160, 0, 0, 0]

/-- The abstract tree encoded in `fRes`. -/
def tRes : ResTree :=
  .dir 1 (.cons 16
    (.dir 0 (.cons 1
      (.dir 0 (.cons 1033 (.leaf 160) (.cons 1041 (.leaf 176) .nil)))
      .nil))
    .nil)

set_option maxRecDepth 1000000 in
/-- C6, witness: over the synthetic two-level tree, the path
`[[16], [1], [0, 1033]]` returns the single leaf under language 1033 and
ignores the sibling leaf under 1041 and the poisoned named slot. -/
theorem claim_C6_witness :
    getResourceTreeLeafOffsets fRes ⟨1, 200⟩ 0 [[16], [1], [0, 1033]] 0 = .ok [160] := by
  have h := claim_C6 fRes ⟨1, 200⟩ 0 tRes 0 [[16], [1], [0, 1033]] (by decide) (by decide)
  rw [h]
  rfl

theorem recHasKey_iff {α : Type} (m : List (String × α)) (k : String) :
    recHasKey m k = true ↔ ∃ p ∈ m, p.1 = k := by
  simp [recHasKey, List.any_eq_true]

theorem recGet_some_hasKey {α : Type} (m : List (String × α)) (k : String) (v : α)
    (h : recGet m k = some v) : recHasKey m k = true := by
  unfold recGet at h
  cases hfind : m.find? (fun p => p.1 == k) with
  | none => rw [hfind] at h; cases h
  | some p =>
    have hmem := List.mem_of_find?_eq_some hfind
    have hpk := List.find?_some hfind
    exact (recHasKey_iff m k).mpr ⟨p, hmem, by simpa using hpk⟩

theorem recSet_mem {α : Type} (m : List (String × α)) (k : String) (v : α)
    (p : String × α) (h : p ∈ recSet m k v) : p ∈ m ∨ p = (k, v) := by
  unfold recSet at h
  split at h
  · obtain ⟨q, hq, rfl⟩ := List.mem_map.mp h
    by_cases hqk : q.1 == k
    · right; simp [hqk]
    · left; simpa [hqk] using hq
  · rcases List.mem_append.mp h with h1 | h1
    · exact Or.inl h1
    · right; simpa using h1

theorem recHasKey_set_iff {α : Type} (m : List (String × α)) (k k' : String) (v : α) :
    recHasKey (recSet m k' v) k = true ↔ (k = k' ∨ recHasKey m k = true) := by
  constructor
  · intro h
    obtain ⟨p, hp, hpk⟩ := (recHasKey_iff _ _).mp h
    rcases recSet_mem m k' v p hp with hm | hEq
    · exact Or.inr ((recHasKey_iff _ _).mpr ⟨p, hm, hpk⟩)
    · left
      rw [hEq] at hpk
      exact hpk.symm
  · intro h
    rw [recHasKey_iff]
    unfold recSet
    by_cases hpres : (m.any (fun p => p.1 == k')) = true
    · rw [if_pos hpres]
      rcases h with hkk | hk
      · subst hkk
        obtain ⟨q, hq, hqk⟩ := List.any_eq_true.mp hpres
        exact ⟨(k, v), List.mem_map.mpr ⟨q, hq, by simp [hqk]⟩, rfl⟩
      · obtain ⟨q, hq, hqk⟩ := (recHasKey_iff m k).mp hk
        by_cases hqk' : (q.1 == k') = true
        · have hk'q : k = k' := by
            rw [← hqk]
            exact beq_iff_eq.mp hqk'
          exact ⟨(k', v), List.mem_map.mpr ⟨q, hq, by simp [hqk']⟩, hk'q.symm⟩
        · exact ⟨q, List.mem_map.mpr ⟨q, hq, by simp [hqk']⟩, hqk⟩
    · rw [if_neg hpres]
      rcases h with hkk | hk
      · subst hkk
        exact ⟨(k, v), by simp⟩
      · obtain ⟨q, hq, hqk⟩ := (recHasKey_iff m k).mp hk
        exact ⟨q, List.mem_append.mpr (Or.inl hq), hqk⟩

theorem dedup_pairs : ∀ (l : List ShortcutDetails) (acc : List (String × ShortcutDetails))
    (p : String × ShortcutDetails), p ∈ l.foldl dedupStep acc →
    p ∈ acc ∨ (p.2 ∈ l ∧ lowerStr p.2.target = p.1) := by
  intro l
  induction l with
  | nil =>
    intro acc p hp
    exact Or.inl hp
  | cons s l' ih =>
    intro acc p hp
    rw [List.foldl_cons] at hp
    rcases ih (dedupStep acc s) p hp with hacc' | ⟨hmem, hkey⟩
    · have hstep : p ∈ acc ∨ p = (lowerStr s.target, s) := by
        unfold dedupStep at hacc'
        cases hget : recGet acc (lowerStr s.target) with
        | none =>
          rw [hget] at hacc'
          exact recSet_mem _ _ _ _ hacc'
        | some stored =>
          rw [hget] at hacc'
          by_cases hcond : (argsNonEmpty stored && !(argsNonEmpty s)) = true
          · have hacc2 : p ∈ recSet acc (lowerStr s.target) s := by
              simpa [hcond] using hacc'
            exact recSet_mem _ _ _ _ hacc2
          · have hacc2 : p ∈ acc := by
              simpa [hcond] using hacc'
            exact Or.inl hacc2
      rcases hstep with h1 | h1
      · exact Or.inl h1
      · right
        rw [h1]
        exact ⟨List.mem_cons_self s l', rfl⟩
    · exact Or.inr ⟨List.mem_cons_of_mem s hmem, hkey⟩

theorem dedup_hasKey : ∀ (l : List ShortcutDetails) (acc : List (String × ShortcutDetails))
    (k : String), recHasKey (l.foldl dedupStep acc) k = true ↔
      (recHasKey acc k = true ∨ ∃ s ∈ l, lowerStr s.target = k) := by
  intro l
  induction l with
  | nil =>
    intro acc k
    simp
  | cons s l' ih =>
    intro acc k
    rw [List.foldl_cons, ih]
    have hstep : recHasKey (dedupStep acc s) k = true ↔
        (k = lowerStr s.target ∨ recHasKey acc k = true) := by
      unfold dedupStep
      cases hget : recGet acc (lowerStr s.target) with
      | none => exact recHasKey_set_iff acc k (lowerStr s.target) s
      | some stored =>
        by_cases hcond : (argsNonEmpty stored && !(argsNonEmpty s)) = true
        · simp only [hcond]
          rw [if_pos trivial]
          exact recHasKey_set_iff acc k (lowerStr s.target) s
        · have hcond' : (argsNonEmpty stored && !(argsNonEmpty s)) = false := by
            simpa using hcond
          simp only [hcond']
          rw [if_neg (by simp)]
          constructor
          · exact fun h => Or.inr h
          · rintro (rfl | h)
            · exact recGet_some_hasKey acc _ stored hget
            · exact h
    rw [hstep]
    constructor
    · rintro ((rfl | h) | ⟨s', hs', hk⟩)
      · exact Or.inr ⟨s, List.mem_cons_self s l', rfl⟩
      · exact Or.inl h
      · exact Or.inr ⟨s', List.mem_cons_of_mem s hs', hk⟩
    · rintro (h | ⟨s', hs', hk⟩)
      · exact Or.inl (Or.inr h)
      · rcases List.mem_cons.mp hs' with rfl | hmem
        · exact Or.inl (Or.inl hk.symm)
        · exact Or.inr ⟨s', hmem, hk⟩

theorem cacheFold_hasKey (fs : String → Option File) :
    ∀ (rl : List ShortcutDetails) (cache : List (String × ShortcutDetails)) (k : String),
      recHasKey (rl.foldl (cacheStep fs) cache) k = true ↔
        (recHasKey cache k = true ∨
          ∃ s ∈ rl, lowerStr s.target = k ∧ shortcutQualifies fs s = true) := by
  intro rl
  induction rl with
  | nil =>
    intro cache k
    simp
  | cons s rl' ih =>
    intro cache k
    rw [List.foldl_cons, ih]
    have hstep : recHasKey (cacheStep fs cache s) k = true ↔
        ((k = lowerStr s.target ∧ shortcutQualifies fs s = true) ∨
          recHasKey cache k = true) := by
      unfold cacheStep
      by_cases hq : shortcutQualifies fs s = true
      · rw [if_pos hq, recHasKey_set_iff]
        constructor
        · rintro (rfl | h)
          · exact Or.inl ⟨rfl, hq⟩
          · exact Or.inr h
        · rintro (⟨rfl, _⟩ | h)
          · exact Or.inl rfl
          · exact Or.inr h
      · rw [if_neg hq]
        constructor
        · exact fun h => Or.inr h
        · rintro (⟨_, hq'⟩ | h)
          · exact absurd hq' hq
          · exact h
    rw [hstep]
    constructor
    · rintro ((⟨rfl, hq⟩ | h) | ⟨s', hs', hk, hq⟩)
      · exact Or.inr ⟨s, List.mem_cons_self s rl', rfl, hq⟩
      · exact Or.inl h
      · exact Or.inr ⟨s', List.mem_cons_of_mem s hs', hk, hq⟩
    · rintro (h | ⟨s', hs', hk, hq⟩)
      · exact Or.inl (Or.inr h)
      · rcases List.mem_cons.mp hs' with rfl | hmem
        · exact Or.inl (Or.inl ⟨hk.symm, hq⟩)
        · exact Or.inr ⟨s', hmem, hk, hq⟩

theorem qualifies_key (fs : String → Option File)
    (hfs : ∀ p, importsDll fs p ("WS2_32.dll") = importsDll fs (lowerStr p) ("WS2_32.dll"))
    (s s' : ShortcutDetails) (h : lowerStr s.target = lowerStr s'.target) :
    shortcutQualifies fs s = shortcutQualifies fs s' := by
  unfold shortcutQualifies
  rw [h, hfs s.target, hfs s'.target, h]

theorem mem_resolveLinks (resolved : List (Option ShortcutDetails)) (s : ShortcutDetails) :
    s ∈ resolveLinks resolved ↔ (some s ∈ resolved ∧ resolveLinksKeep s = true) := by
  simp [resolveLinks, List.mem_filter, List.mem_filterMap]

theorem claim_C1 (fs : String → Option File) (resolved : List (Option ShortcutDetails))
    (cache : List (String × ShortcutDetails)) (t : String)
    (hfs : ∀ p, importsDll fs p ("WS2_32.dll") = importsDll fs (lowerStr p) ("WS2_32.dll")) :
    recHasKey (updateShortcutCache fs cache resolved) (lowerStr t) = true ↔
      (recHasKey cache (lowerStr t) = true ∨
        ∃ s : ShortcutDetails, some s ∈ resolved ∧ lowerStr s.target = lowerStr t ∧
          strEndsWith s.target (".exe") = true ∧
          strEndsWith s.target ("Mullvad VPN.exe") = false ∧
          strIncludes ("install") (lowerStr s.target) = false ∧
          strIncludes ("install") (lowerStr s.name) = false ∧
          (APPLICATION_ALLOW_LIST.contains (basename (lowerStr s.target)) = true ∨
            importsDll fs s.target ("WS2_32.dll") = true)) := by
  unfold updateShortcutCache
  rw [cacheFold_hasKey]
  refine or_congr Iff.rfl ?_
  constructor
  · rintro ⟨s, hmem, hkey, hq⟩
    obtain ⟨p, hp, hps⟩ : ∃ p ∈ (resolveLinks resolved).foldl dedupStep [], p.2 = s := by
      simpa [removeDuplicates, recValues, List.mem_map] using hmem
    rcases dedup_pairs _ _ p hp with habs | ⟨hmem2, _⟩
    · simp at habs
    · rw [hps] at hmem2
      obtain ⟨hres, hkeep⟩ := (mem_resolveLinks resolved s).mp hmem2
      simp only [resolveLinksKeep, Bool.and_eq_true, Bool.not_eq_true'] at hkeep
      obtain ⟨⟨⟨hvpn, hexe⟩, hinst1⟩, hinst2⟩ := hkeep
      have hclass := hq
      simp only [shortcutQualifies, Bool.or_eq_true] at hclass
      exact ⟨s, hres, hkey, hexe, hvpn, hinst1, hinst2, hclass⟩
  · rintro ⟨s, hres, hkey, hexe, hvpn, hinst1, hinst2, hclass⟩
    have hfl : s ∈ resolveLinks resolved := by
      rw [mem_resolveLinks]
      refine ⟨hres, ?_⟩
      simp only [resolveLinksKeep, Bool.and_eq_true, Bool.not_eq_true']
      exact ⟨⟨⟨hvpn, hexe⟩, hinst1⟩, hinst2⟩
    have hqs : shortcutQualifies fs s = true := by
      simp only [shortcutQualifies, Bool.or_eq_true]
      exact hclass
    have hkk : recHasKey ((resolveLinks resolved).foldl dedupStep []) (lowerStr t) = true :=
      (dedup_hasKey _ _ _).mpr (Or.inr ⟨s, hfl, hkey⟩)
    obtain ⟨p, hp, hp1⟩ := (recHasKey_iff _ _).mp hkk
    rcases dedup_pairs _ _ p hp with habs | ⟨hmem2, hkey2⟩
    · simp at habs
    · refine ⟨p.2, ?_, ?_, ?_⟩
      · simp only [removeDuplicates, recValues, List.mem_map]
        exact ⟨p, hp, rfl⟩
      · rw [hkey2, hp1]
      · rw [qualifies_key fs hfs p.2 s (by rw [hkey2, hp1, ← hkey])]
        exact hqs

/-- A concrete resolved link for the C1 witness. -/
def firefoxShortcut : ShortcutDetails := { target := "C:/X/firefox.exe", name := "Firefox" }

/-- C1, witness: a scan over one successfully resolved Firefox shortcut (and
one failed resolution) puts its lower-cased target into the empty shortcut
cache, through the allow-list disjunct, under a file system with no openable
files. -/
theorem claim_C1_witness :
    recHasKey (updateShortcutCache fsEmpty [] [some firefoxShortcut, none])
      (lowerStr ("c:/x/FIREFOX.EXE")) = true :=
  (claim_C1 fsEmpty [some firefoxShortcut, none] [] ("c:/x/FIREFOX.EXE")
    (fun _ => rfl)).mpr
    (Or.inr ⟨firefoxShortcut, by decide, by decide, by decide, by decide, by decide,
      by decide, Or.inl (by decide)⟩)
